import Mathlib

/-!
Verification of the pseudo2latex lexer (src/main.js, class Lexer).

The lexer is a single-pass character scanner over an in-memory string.
It is embedded shallowly: the scan cursor (position / currentChar / peek)
is represented by the list of characters not yet consumed, so
advance = List.tail, currentChar = head?, peek = tail.head?.
Each sub-recognizer of the JS class becomes a function from the remaining
characters to the produced token together with the characters left over.
The main dispatch loop becomes a fuel-indexed recursion; every loop
iteration consumes at least one character and exactly one unit of fuel,
so fuel equal to the input length is always sufficient
(theorem tokenizeLoop_fuel_irrelevant below makes this precise).

JS-specific points kept faithfully:
  - tokens.push(this.getArrow()) pushes the RETURN VALUE of getArrow,
    which is null when the two-character arrow pattern did not match;
    so the output is a list of Option Token, with none for a pushed null.
  - indentation levels are numSpaces / 4 in real (here: rational)
    division, so the indent stack holds rationals.
  - thrown Error values become an Except error; the two throw sites give
    the two constructors of LexError.
-/

/-- The closed set of token kind tags appearing in src/main.js. -/
inductive TokenType
  | NEWLINE
  | INDENT
  | DEDENT
  | COMMENT
  | STRING
  | INTEGER
  | IDENTIFIER
  | KEYWORD
  | LPAREN
  | RPAREN
  | COMMA
  | ARROW
  | PLUS
  | MINUS
  | MULTIPLY
  | DIVIDE
  | POWER
  | COMPARISON
  | SUBSCRIPT
  deriving DecidableEq, Repr

/-- A token value is a string (most tokens) or a number
(INTEGER via parseInt, INDENT/DEDENT via the level arithmetic). -/
inductive TokenValue
  | str : String → TokenValue
  | num : ℚ → TokenValue
  deriving DecidableEq, Repr

/-- One token record { type, value } as produced by the JS lexer. -/
structure Token where
  type : TokenType
  value : TokenValue
  deriving DecidableEq, Repr

/-- The two throw sites of Lexer.error: "Unterminated string literal"
in getString and "Unterminated comment" in getMultiLineComment. -/
inductive LexError
  | UnterminatedString
  | UnterminatedComment
  deriving DecidableEq, Repr

/-- getSingleLineComment: skip the two slashes, collect everything up to
but excluding the newline (or end of input). -/
def getSingleLineComment (cs : List Char) : Token × List Char :=
  let body := cs.drop 2
  ({ type := .COMMENT, value := .str (String.mk (body.takeWhile (· ≠ '\n'))) },
   body.dropWhile (· ≠ '\n'))

/-- The scanning loop of getMultiLineComment: collect characters while
not (currentChar = star and peek = slash); when the closing pair is found
both its characters are skipped; none when end of input is reached. -/
def scanToStarSlash : List Char → Option (List Char × List Char)
  | [] => none
  | c :: rest =>
    if c = '*' ∧ rest.head? = some '/' then some ([], rest.tail)
    else (scanToStarSlash rest).map fun p => (c :: p.1, p.2)

/-- getMultiLineComment: skip the opening two characters, scan to the
closing delimiter, error (Unterminated comment) at end of input. -/
def getMultiLineComment (cs : List Char) : Except LexError (Token × List Char) :=
  match scanToStarSlash (cs.drop 2) with
  | some (body, rest) => .ok ({ type := .COMMENT, value := .str (String.mk body) }, rest)
  | none => .error .UnterminatedComment

/-- getString: the opening quote (the delimiter) has been split off by the
dispatch; collect interior characters up to the matching delimiter.
Mirrors the JS check currentChar === delimiter after the collection loop:
the else branch (end of input) throws Unterminated string literal. -/
def getString (delimiter : Char) (rest : List Char) : Except LexError (Token × List Char) :=
  let result := rest.takeWhile (· ≠ delimiter)
  match rest.dropWhile (· ≠ delimiter) with
  | d :: rest2 =>
    if d = delimiter then
      .ok ({ type := .STRING, value := .str (String.mk result) }, rest2)
    else
      .error .UnterminatedString
  | [] => .error .UnterminatedString

/-- parseInt on a run of decimal digits. -/
def digitsToNat (ds : List Char) : ℕ :=
  ds.foldl (fun n d => 10 * n + (d.toNat - '0'.toNat)) 0

/-- getInteger: a maximal run of digits, decoded with parseInt. -/
def getInteger (cs : List Char) : Token × List Char :=
  ({ type := .INTEGER, value := .num ((digitsToNat (cs.takeWhile Char.isDigit) : ℕ) : ℚ) },
   cs.dropWhile Char.isDigit)

/-- The reserved-word list of getIdentifierOrKeyword. -/
def keywords : List String :=
  ["function", "if", "else", "then", "while", "break", "continue", "return"]

/-- getIdentifierOrKeyword: a maximal run of ASCII letters; KEYWORD when
the run is in the reserved list, IDENTIFIER otherwise. -/
def getIdentifierOrKeyword (cs : List Char) : Token × List Char :=
  let result := String.mk (cs.takeWhile Char.isAlpha)
  if result ∈ keywords then
    ({ type := .KEYWORD, value := .str result }, cs.dropWhile Char.isAlpha)
  else
    ({ type := .IDENTIFIER, value := .str result }, cs.dropWhile Char.isAlpha)

/-- The operators object of getOperator. Lookup of a key outside the map
is undefined in JS; here it is none (the dispatch guard makes that case
unreachable). -/
def operators (c : Char) : Option TokenType :=
  if c = '+' then some .PLUS
  else if c = '-' then some .MINUS
  else if c = '*' then some .MULTIPLY
  else if c = '/' then some .DIVIDE
  else if c = '^' then some .POWER
  else none

/-- getOperator: one character, token type from the operators map. -/
def getOperator (c : Char) (rest : List Char) : Option Token × List Char :=
  ((operators c).map fun t => { type := t, value := .str (String.mk [c]) }, rest)

/-- getComparison: two-character form when peek is the equals sign
(the second disjunct of the JS condition is kept although redundant),
single-character form otherwise. -/
def getComparison (c : Char) (rest : List Char) : Token × List Char :=
  if rest.head? = some '=' ∨ (c = '!' ∧ rest.head? = some '=') then
    ({ type := .COMPARISON, value := .str (String.mk [c, '=']) }, rest.tail)
  else
    ({ type := .COMPARISON, value := .str (String.mk [c]) }, rest)

/-- getSubscript: the underscore has been skipped by the dispatch; collect
a maximal (possibly empty) run of letters and digits. -/
def getSubscript (cs : List Char) : Token × List Char :=
  ({ type := .SUBSCRIPT, value := .str (String.mk (cs.takeWhile Char.isAlphanum)) },
   cs.dropWhile Char.isAlphanum)

/-- getArrow: speculative two-character recognition. When peek is the
greater-than sign both characters are consumed, otherwise only the current
one; the result is an ARROW token only if the collected text is one of the
two arrows, and null (here: none) otherwise - the null is pushed by the
caller into the token array. -/
def getArrow (c : Char) (rest : List Char) : Option Token × List Char :=
  let (result, rest2) :=
    if rest.head? = some '>' ∨ (c = '-' ∧ rest.head? = some '>') then
      (String.mk [c, '>'], rest.tail)
    else
      (String.mk [c], rest)
  if result = "=>" ∨ result = "->" then
    (some { type := .ARROW, value := .str result }, rest2)
  else
    (none, rest2)

/-- The constant spacePerIndent = 4 of handleIndentation. -/
def spacePerIndent : ℕ := 4

/-- The pop loop of handleIndentation: while the current level is below
the top of the stack, pop and emit one DEDENT whose value is the new top
after the pop (headD 0 models reading indentStack[length - 1]). -/
def popDedents (currentIndentLevel : ℚ) : List ℚ → List Token × List ℚ
  | [] => ([], [])
  | top :: rest =>
    if currentIndentLevel < top then
      let (toks, st) := popDedents currentIndentLevel rest
      ({ type := .DEDENT, value := .num (rest.headD 0) } :: toks, st)
    else
      ([], top :: rest)

/-- handleIndentation, invoked immediately after a NEWLINE token: count
the maximal run of spaces, compute the level as numSpaces / 4 in exact
rational division (mkRat numSpaces 4 is that quotient; the lemma
level_eq_div below rewrites it to the division form), then push (INDENT),
pop (DEDENTs) or do nothing.
The stack is kept top-first (JS pushes at the array end). -/
def handleIndentation (cs : List Char) (stack : List ℚ) :
    List Token × List Char × List ℚ :=
  let numSpaces := (cs.takeWhile (· = ' ')).length
  let rest := cs.dropWhile (· = ' ')
  let currentIndentLevel : ℚ := mkRat numSpaces spacePerIndent
  let lastIndentLevel := stack.headD 0
  if currentIndentLevel > lastIndentLevel then
    ([{ type := .INDENT, value := .num currentIndentLevel }],
     rest, currentIndentLevel :: stack)
  else if currentIndentLevel < lastIndentLevel then
    let (toks, st) := popDedents currentIndentLevel stack
    (toks, rest, st)
  else
    ([], rest, stack)

/-- closeIndents: after the main loop, while more than one level remains,
pop and emit one DEDENT whose value is the new top after the pop. -/
def closeIndents : List ℚ → List Token
  | _ :: next :: rest =>
    { type := .DEDENT, value := .num next } :: closeIndents (next :: rest)
  | _ => []

/-- One iteration of the dispatch loop of Lexer.tokenize: the JS else-if
chain on the current character c, with rest the characters after it and
recur the continuation of the loop on whatever the iteration leaves over.
Arrow and operator branches push the Option returned by their recognizer
(JS pushes the raw return value, null included); all other recognizers
always yield a token. -/
def tokenizeStep (recur : List Char → List ℚ →
      Except LexError (List (Option Token) × List ℚ))
    (c : Char) (rest : List Char) (stack : List ℚ) :
    Except LexError (List (Option Token) × List ℚ) :=
  if c = '\n' then
      match handleIndentation rest stack with
      | (itoks, rest2, stack2) =>
        (recur rest2 stack2).map fun p =>
          (some { type := .NEWLINE, value := .str "\n" } :: (itoks.map some ++ p.1), p.2)
    else if c = ' ' ∨ c = '\t' then
      recur rest stack
    else if c = '/' ∧ rest.head? = some '/' then
      match getSingleLineComment (c :: rest) with
      | (tok, rest2) =>
        (recur rest2 stack).map fun p => (some tok :: p.1, p.2)
    else if c = '/' ∧ rest.head? = some '*' then
      match getMultiLineComment (c :: rest) with
      | .error e => .error e
      | .ok (tok, rest2) =>
        (recur rest2 stack).map fun p => (some tok :: p.1, p.2)
    else if c = '"' ∨ c = '\'' then
      match getString c rest with
      | .error e => .error e
      | .ok (tok, rest2) =>
        (recur rest2 stack).map fun p => (some tok :: p.1, p.2)
    else if c.isDigit then
      match getInteger (c :: rest) with
      | (tok, rest2) =>
        (recur rest2 stack).map fun p => (some tok :: p.1, p.2)
    else if c.isAlpha then
      match getIdentifierOrKeyword (c :: rest) with
      | (tok, rest2) =>
        (recur rest2 stack).map fun p => (some tok :: p.1, p.2)
    else if c = '(' then
      (recur rest stack).map fun p =>
        (some { type := .LPAREN, value := .str "(" } :: p.1, p.2)
    else if c = ')' then
      (recur rest stack).map fun p =>
        (some { type := .RPAREN, value := .str ")" } :: p.1, p.2)
    else if c = ',' then
      (recur rest stack).map fun p =>
        (some { type := .COMMA, value := .str "," } :: p.1, p.2)
    else if c = '=' ∨ c = '-' then
      match getArrow c rest with
      | (t, rest2) =>
        (recur rest2 stack).map fun p => (t :: p.1, p.2)
    else if c = '+' ∨ c = '-' ∨ c = '*' ∨ c = '/' ∨ c = '^' then
      match getOperator c rest with
      | (t, rest2) =>
        (recur rest2 stack).map fun p => (t :: p.1, p.2)
    else if c = '=' ∨ c = '!' ∨ c = '<' then
      match getComparison c rest with
      | (tok, rest2) =>
        (recur rest2 stack).map fun p => (some tok :: p.1, p.2)
    else if c = '_' then
      match getSubscript rest with
      | (tok, rest2) =>
        (recur rest2 stack).map fun p => (some tok :: p.1, p.2)
    else
      recur rest stack

/-- The main dispatch loop of Lexer.tokenize, fuel-indexed: one
tokenizeStep per iteration. An exhausted fuel returns the tokens so far;
fuel equal to the remaining length never runs out, since every iteration
consumes at least one character and exactly one unit of fuel
(theorem tokenizeLoop_fuel_irrelevant below makes this precise). -/
def tokenizeLoop : ℕ → List Char → List ℚ →
    Except LexError (List (Option Token) × List ℚ)
  | _, [], stack => .ok ([], stack)
  | 0, _ :: _, stack => .ok ([], stack)
  | fuel + 1, c :: rest, stack => tokenizeStep (tokenizeLoop fuel) c rest stack

/-- Lexer.tokenize: run the dispatch loop from the initial indent stack
[0], then close the remaining indents. For the empty input the JS
constructor sets currentChar to undefined (not null): the digit regex
test on the string "undefined" fails but the letter regex test succeeds,
so the scan emits a single IDENTIFIER token with value "undefined". -/
def tokenize (input : String) : Except LexError (List (Option Token)) :=
  if input.data.isEmpty then
    .ok [some { type := .IDENTIFIER, value := .str "undefined" }]
  else
    match tokenizeLoop input.data.length input.data [0] with
    | .error e => .error e
    | .ok (toks, stack) => .ok (toks ++ (closeIndents stack).map some)

/-- Does the character list contain the two-character comment opener as a
substring (adjacent slash and star)? -/
def hasSlashStar : List Char → Bool
  | [] => false
  | c :: rest => (c = '/' && rest.head? = some '*') || hasSlashStar rest

/-- Does the character list contain a quote character? -/
def hasQuote (cs : List Char) : Bool :=
  cs.any fun c => c = '"' || c = '\''

/-- The indentation-stack invariant (the stack is kept top-first): never
empty, bottom element exactly 0, all levels non-negative, and strictly
decreasing from the top down - that is, strictly increasing from the
bottom of the stack to its top. -/
def IndentInv (stack : List ℚ) : Prop :=
  stack ≠ [] ∧ stack.getLast? = some 0 ∧ (∀ q ∈ stack, 0 ≤ q) ∧
    List.Chain' (· > ·) stack

/-- The level carried by an INDENT or DEDENT token entry, none for every
other entry. -/
def indentValue : Option Token → Option ℚ
  | some { type := .INDENT, value := .num q } => some q
  | some { type := .DEDENT, value := .num q } => some q
  | _ => none

/-- The INDENT/DEDENT values of a tokenization result, in emission order
(empty for a failed run). -/
def indentValues (r : Except LexError (List (Option Token))) : List ℚ :=
  match r with
  | .ok toks => toks.filterMap indentValue
  | .error _ => []

/-- Does a successful tokenization result contain a well-formed token of
the given kind? -/
def containsType (r : Except LexError (List (Option Token))) (ty : TokenType) : Bool :=
  match r with
  | .ok toks => toks.any fun t =>
    match t with
    | some tok => tok.type == ty
    | none => false
  | .error _ => false

/-- Is every entry of a successful token list a well-formed token, that
is, not a pushed null? -/
def allWellFormed (r : Except LexError (List (Option Token))) : Bool :=
  match r with
  | .ok toks => toks.all fun t => t.isSome
  | .error _ => true

/-- n space characters. -/
def spaces : ℕ → List Char
  | 0 => []
  | n + 1 => ' ' :: spaces n

/-- A staircase block: n further lines, the first indented with 4 * k
leading spaces (level k), each following line one level deeper. -/
def stairFrom : ℕ → ℕ → List Char
  | _, 0 => []
  | k, n + 1 => '\n' :: (spaces (4 * k) ++ 'a' :: stairFrom (k + 1) n)

/-- The staircase input of the indentation round-trip: a level-0 line
followed by lines at levels 1, 2, ..., L, ending at end-of-input so that
the end-of-input drain emits the closing DEDENTs. -/
def stairInput (L : ℕ) : String :=
  String.mk ('a' :: stairFrom 1 L)

/-- The tokens the loop produces for stairFrom k n: per line one NEWLINE,
one INDENT carrying the new level, and the line body identifier. -/
def stairToks : ℕ → ℕ → List (Option Token)
  | _, 0 => []
  | k, n + 1 =>
    some { type := .NEWLINE, value := .str "\n" } ::
    some { type := .INDENT, value := .num ((k : ℕ) : ℚ) } ::
    some { type := .IDENTIFIER, value := .str "a" } :: stairToks (k + 1) n

/-- The indent stack left by the staircase: levels k+n, ..., k+1 pushed
on top of (k : ℚ) :: s. -/
def finalStack : ℕ → ℕ → List ℚ → List ℚ
  | 0, k, s => ((k : ℕ) : ℚ) :: s
  | n + 1, k, s => finalStack n (k + 1) (((k : ℕ) : ℚ) :: s)

/-- The levels k+n, k+n-1, ..., k+1, top-first. -/
def descList : ℕ → ℕ → List ℚ
  | 0, _ => []
  | n + 1, k => ((k + n + 1 : ℕ) : ℚ) :: descList n k

/-- DEDENT tokens with values k+n-1, ..., k, as emitted when draining the
staircase stack. -/
def dedentToks : ℕ → ℕ → List Token
  | 0, _ => []
  | n + 1, k => { type := .DEDENT, value := .num ((k + n : ℕ) : ℚ) } :: dedentToks n k

/-! ## Helper lemmas -/

/-- The level computed by handleIndentation is the exact rational
quotient of the space count by 4. -/
theorem level_eq_div (n : ℕ) : (mkRat n spacePerIndent : ℚ) = (n : ℚ) / 4 := by
  rw [spacePerIndent, Rat.mkRat_eq_div]
  norm_num

/-- ASCII letters are not decimal digits. -/
theorem isDigit_eq_false_of_isAlpha {c : Char} (h : c.isAlpha = true) :
    c.isDigit = false := by
  simp only [Char.isAlpha, Char.isUpper, Char.isLower, Char.isDigit, Bool.or_eq_true,
    Bool.and_eq_true, decide_eq_true_eq, UInt32.le_def, BitVec.le_def] at h ⊢
  simp only [Bool.and_eq_false_iff, decide_eq_false_iff_not, UInt32.le_def, BitVec.le_def]
  have e48 : (UInt32.toBitVec 48).toNat = 48 := rfl
  have e57 : (UInt32.toBitVec 57).toNat = 57 := rfl
  have e65 : (UInt32.toBitVec 65).toNat = 65 := rfl
  have e90 : (UInt32.toBitVec 90).toNat = 90 := rfl
  have e97 : (UInt32.toBitVec 97).toNat = 97 := rfl
  have e122 : (UInt32.toBitVec 122).toNat = 122 := rfl
  omega

/-- Unfolding one loop iteration. -/
theorem tokenizeLoop_cons (fuel : ℕ) (c : Char) (rest : List Char) (stack : List ℚ) :
    tokenizeLoop (fuel + 1) (c :: rest) stack =
      tokenizeStep (tokenizeLoop fuel) c rest stack := rfl

/-- Both branches of getIdentifierOrKeyword leave the same remainder. -/
theorem getIdentifierOrKeyword_snd (cs : List Char) :
    (getIdentifierOrKeyword cs).2 = cs.dropWhile Char.isAlpha := by
  rw [getIdentifierOrKeyword]
  split <;> rfl

/-- A dispatch iteration on a letter runs getIdentifierOrKeyword on the
whole remaining input and continues after the maximal letter run. -/
theorem tokenizeStep_alpha (recur : List Char → List ℚ →
      Except LexError (List (Option Token) × List ℚ))
    (c : Char) (rest : List Char) (stack : List ℚ) (h : c.isAlpha = true) :
    tokenizeStep recur c rest stack =
      (recur ((c :: rest).dropWhile Char.isAlpha) stack).map fun p =>
        (some (getIdentifierOrKeyword (c :: rest)).1 :: p.1, p.2) := by
  have h1 : c ≠ '\n' := by rintro rfl; exact absurd h (by decide)
  have h2 : c ≠ ' ' := by rintro rfl; exact absurd h (by decide)
  have h3 : c ≠ '\t' := by rintro rfl; exact absurd h (by decide)
  have h4 : c ≠ '/' := by rintro rfl; exact absurd h (by decide)
  have h5 : c ≠ '"' := by rintro rfl; exact absurd h (by decide)
  have h6 : c ≠ '\'' := by rintro rfl; exact absurd h (by decide)
  have h7 := isDigit_eq_false_of_isAlpha h
  rw [tokenizeStep]
  simp [h1, h2, h3, h4, h5, h6, h7, h, getIdentifierOrKeyword_snd]

/-- Claim C1 (amended): when the current character is an equals sign or
a minus sign and the next character is not a greater-than sign, the
iteration consumes the character and pushes a null entry (none), not a
well-formed token, onto the output sequence. -/
theorem C1_arrow_fallthrough_amended (fuel : ℕ) (c : Char) (rest : List Char)
    (stack : List ℚ) (hc : c = '=' ∨ c = '-') (hp : rest.head? ≠ some '>') :
    tokenizeLoop (fuel + 1) (c :: rest) stack =
      (tokenizeLoop fuel rest stack).map fun p => ((none : Option Token) :: p.1, p.2) := by
  rcases hc with rfl | rfl <;>
  · rw [tokenizeLoop_cons, tokenizeStep]
    simp [getArrow, hp]

theorem C1_arrow_fallthrough_amended_witness :
    (('=' : Char) = '=' ∨ ('=' : Char) = '-') ∧ ([] : List Char).head? ≠ some '>' ∧
    tokenizeLoop 1 ['='] [0] =
      (tokenizeLoop 0 [] [0]).map fun p => ((none : Option Token) :: p.1, p.2) :=
  ⟨Or.inl rfl, by simp, C1_arrow_fallthrough_amended 0 '=' [] [0] (Or.inl rfl) (by simp)⟩

/-- Claim C1 counterexample: on the one-character input consisting of a
bare equals sign the returned list is [null]: an entry is appended and it
is not a well-formed token. -/
theorem C1_arrow_fallthrough_cex :
    tokenize "=" = .ok [none] ∧ allWellFormed (tokenize "=") = false :=
  ⟨rfl, rfl⟩

/-- Claim C2 (amended): the characters plus, star, caret, and slash (when
not opening a comment) emit the corresponding single-character operator
token; the minus sign is excluded, since the dispatch routes it to arrow
recognition first. -/
theorem C2_operator_tokens_amended (fuel : ℕ) (c : Char) (t : TokenType)
    (rest : List Char) (stack : List ℚ)
    (hct : (c = '+' ∧ t = .PLUS) ∨ (c = '*' ∧ t = .MULTIPLY) ∨ (c = '^' ∧ t = .POWER) ∨
      (c = '/' ∧ t = .DIVIDE ∧ rest.head? ≠ some '/' ∧ rest.head? ≠ some '*')) :
    tokenizeLoop (fuel + 1) (c :: rest) stack =
      (tokenizeLoop fuel rest stack).map fun p =>
        (some { type := t, value := .str (String.mk [c]) } :: p.1, p.2) := by
  rcases hct with ⟨rfl, rfl⟩ | ⟨rfl, rfl⟩ | ⟨rfl, rfl⟩ | ⟨rfl, rfl, h1, h2⟩
  · rw [tokenizeLoop_cons, tokenizeStep]
    simp [getOperator, operators]
  · rw [tokenizeLoop_cons, tokenizeStep]
    simp [getOperator, operators]
  · rw [tokenizeLoop_cons, tokenizeStep]
    simp [getOperator, operators]
  · rw [tokenizeLoop_cons, tokenizeStep]
    simp [getOperator, operators, h1, h2]

theorem C2_operator_tokens_amended_witness :
    ((('+' : Char) = '+' ∧ TokenType.PLUS = TokenType.PLUS) ∨
      (('+' : Char) = '*' ∧ TokenType.PLUS = TokenType.MULTIPLY) ∨
      (('+' : Char) = '^' ∧ TokenType.PLUS = TokenType.POWER) ∨
      (('+' : Char) = '/' ∧ TokenType.PLUS = TokenType.DIVIDE ∧
        ([] : List Char).head? ≠ some '/' ∧ ([] : List Char).head? ≠ some '*')) ∧
    tokenizeLoop 1 ['+'] [0] =
      (tokenizeLoop 0 [] [0]).map fun p =>
        (some { type := TokenType.PLUS, value := .str (String.mk ['+']) } :: p.1, p.2) :=
  ⟨Or.inl ⟨rfl, rfl⟩, C2_operator_tokens_amended 0 '+' .PLUS [] [0] (Or.inl ⟨rfl, rfl⟩)⟩

/-- Claim C2 counterexample: in the input with a minus sign between two
identifiers no MINUS token is produced; the minus sign is consumed by
arrow recognition and a null entry is pushed in its place. -/
theorem C2_minus_dropped_cex :
    tokenize "a - b" = .ok [some { type := .IDENTIFIER, value := .str "a" }, none,
      some { type := .IDENTIFIER, value := .str "b" }] ∧
    containsType (tokenize "a - b") .MINUS = false :=
  ⟨rfl, rfl⟩

/-- Claim C3 (amended): between two identifiers, the two-character forms
with a less-than sign or a bang produce one COMPARISON token with that
value; the bare equals sign is consumed by arrow recognition and yields a
null entry, and in the greater-equals form the greater-than sign is
silently dropped by the fallthrough branch and the equals sign yields a
null entry, so neither produces a COMPARISON token. -/
theorem C3_comparison_forms_amended :
    tokenize "x <= y" = .ok [some { type := .IDENTIFIER, value := .str "x" },
      some { type := .COMPARISON, value := .str "<=" },
      some { type := .IDENTIFIER, value := .str "y" }] ∧
    tokenize "x != y" = .ok [some { type := .IDENTIFIER, value := .str "x" },
      some { type := .COMPARISON, value := .str "!=" },
      some { type := .IDENTIFIER, value := .str "y" }] ∧
    tokenize "x = y" = .ok [some { type := .IDENTIFIER, value := .str "x" }, none,
      some { type := .IDENTIFIER, value := .str "y" }] ∧
    tokenize "x >= y" = .ok [some { type := .IDENTIFIER, value := .str "x" }, none,
      some { type := .IDENTIFIER, value := .str "y" }] :=
  ⟨rfl, rfl, rfl, rfl⟩

/-- Claim C3 counterexample: neither the bare equals sign nor the
greater-equals form between identifiers yields any COMPARISON token. -/
theorem C3_bare_eq_cex :
    containsType (tokenize "x = y") .COMPARISON = false ∧
    containsType (tokenize "x >= y") .COMPARISON = false :=
  ⟨rfl, rfl⟩

/-- Claim C8: the arrow example input yields exactly identifier, arrow,
identifier, and the comparison example input yields exactly identifier,
comparison, identifier. -/
theorem C8_arrow_comparison_examples :
    tokenize "a => b" = .ok [some { type := .IDENTIFIER, value := .str "a" },
      some { type := .ARROW, value := .str "=>" },
      some { type := .IDENTIFIER, value := .str "b" }] ∧
    tokenize "x <= y" = .ok [some { type := .IDENTIFIER, value := .str "x" },
      some { type := .COMPARISON, value := .str "<=" },
      some { type := .IDENTIFIER, value := .str "y" }] :=
  ⟨rfl, rfl⟩

/-- Claim C9: a less-than sign or a bang whose next character is not an
equals sign emits a single-character COMPARISON token carrying just that
character, so comparison values outside the four documented forms occur. -/
theorem C9_single_char_comparison (fuel : ℕ) (c : Char) (rest : List Char)
    (stack : List ℚ) (hc : c = '<' ∨ c = '!') (hp : rest.head? ≠ some '=') :
    tokenizeLoop (fuel + 1) (c :: rest) stack =
      (tokenizeLoop fuel rest stack).map fun p =>
        (some { type := .COMPARISON, value := .str (String.mk [c]) } :: p.1, p.2) := by
  rcases hc with rfl | rfl <;>
  · rw [tokenizeLoop_cons, tokenizeStep]
    simp [getComparison, hp]

theorem C9_single_char_comparison_witness :
    (('<' : Char) = '<' ∨ ('<' : Char) = '!') ∧ ([] : List Char).head? ≠ some '=' ∧
    tokenizeLoop 1 ['<'] [0] =
      (tokenizeLoop 0 [] [0]).map fun p =>
        (some { type := TokenType.COMPARISON, value := .str (String.mk ['<']) } :: p.1, p.2) :=
  ⟨Or.inl rfl, by simp, C9_single_char_comparison 0 '<' [] [0] (Or.inl rfl) (by simp)⟩

/-- Claim C10: a maximal run of ASCII letters becomes one token whose
value is the run and whose kind is KEYWORD exactly when the run is one of
the eight reserved words, and IDENTIFIER otherwise. -/
theorem C10_keyword_classification (fuel : ℕ) (c : Char) (rest : List Char)
    (stack : List ℚ) (h : c.isAlpha = true) :
    tokenizeLoop (fuel + 1) (c :: rest) stack =
      (tokenizeLoop fuel ((c :: rest).dropWhile Char.isAlpha) stack).map fun p =>
        (some (Token.mk
            (if String.mk ((c :: rest).takeWhile Char.isAlpha) ∈
                ["function", "if", "else", "then", "while", "break", "continue", "return"]
              then TokenType.KEYWORD else TokenType.IDENTIFIER)
            (.str (String.mk ((c :: rest).takeWhile Char.isAlpha)))) :: p.1, p.2) := by
  rw [tokenizeLoop_cons, tokenizeStep_alpha _ _ _ _ h]
  have hd : ((c :: rest).dropWhile Char.isAlpha) = rest.dropWhile Char.isAlpha := by
    simp [List.dropWhile_cons, h]
  rw [hd]
  congr 1
  funext p
  rw [getIdentifierOrKeyword]
  simp only [keywords]
  split <;> simp_all

theorem C10_keyword_classification_witness :
    ('i' : Char).isAlpha = true ∧
    tokenizeLoop 1 ['i', 'f'] [0] =
      (tokenizeLoop 0 (['i', 'f'].dropWhile Char.isAlpha) [0]).map fun p =>
        (some (Token.mk
            (if String.mk (['i', 'f'].takeWhile Char.isAlpha) ∈
                ["function", "if", "else", "then", "while", "break", "continue", "return"]
              then TokenType.KEYWORD else TokenType.IDENTIFIER)
            (.str (String.mk (['i', 'f'].takeWhile Char.isAlpha)))) :: p.1, p.2) :=
  ⟨rfl, C10_keyword_classification 0 'i' ['f'] [0] rfl⟩

/-- spaces n has length n. -/
theorem spaces_length (n : ℕ) : (spaces n).length = n := by
  induction n with
  | zero => rfl
  | succ n ih => simp [spaces, ih]

/-- The maximal space run of a space block followed by a non-space. -/
theorem takeWhile_spaces (n : ℕ) (c : Char) (t : List Char) (hc : c ≠ ' ') :
    (spaces n ++ c :: t).takeWhile (· = ' ') = spaces n := by
  induction n with
  | zero => simp [spaces, List.takeWhile_cons, hc]
  | succ n ih => simp [spaces, List.takeWhile_cons, ih]

/-- Dropping the maximal space run of a space block followed by a
non-space. -/
theorem dropWhile_spaces (n : ℕ) (c : Char) (t : List Char) (hc : c ≠ ' ') :
    (spaces n ++ c :: t).dropWhile (· = ' ') = c :: t := by
  induction n with
  | zero => simp [spaces, List.dropWhile_cons, hc]
  | succ n ih => simp [spaces, List.dropWhile_cons, ih]

/-- handleIndentation on a line with n leading spaces whose level exceeds
the top of the stack: one INDENT is emitted and the level is pushed. -/
theorem handleIndentation_push (n : ℕ) (c : Char) (t : List Char) (stack : List ℚ)
    (hc : c ≠ ' ') (h : stack.headD 0 < mkRat n spacePerIndent) :
    handleIndentation (spaces n ++ c :: t) stack =
      ([{ type := .INDENT, value := .num (mkRat n spacePerIndent) }],
       c :: t, mkRat n spacePerIndent :: stack) := by
  rw [handleIndentation]
  simp only [takeWhile_spaces n c t hc, dropWhile_spaces n c t hc, spaces_length]
  rw [if_pos h]

/-- Claim C6: after a newline, the level compared against the stack and
carried by a pushed INDENT token is the exact rational quotient of the
leading-space count by 4 (not an integer quotient); in particular the
input with one line of two leading spaces produces an INDENT whose value
is exactly one half. -/
theorem C6_fractional_indent (n : ℕ) (t : List Char) (s : List ℚ) (hn : 0 < n) :
    (handleIndentation (spaces n ++ 'b' :: t) ((0 : ℚ) :: s)).1 =
      [{ type := .INDENT, value := .num ((n : ℚ) / 4) }] ∧
    (handleIndentation (spaces n ++ 'b' :: t) ((0 : ℚ) :: s)).2.2 =
      ((n : ℚ) / 4) :: (0 : ℚ) :: s ∧
    tokenize "a\n  b" = .ok [some { type := .IDENTIFIER, value := .str "a" },
      some { type := .NEWLINE, value := .str "\n" },
      some { type := .INDENT, value := .num (mkRat 1 2) },
      some { type := .IDENTIFIER, value := .str "b" },
      some { type := .DEDENT, value := .num 0 }] ∧
    (mkRat 1 2 : ℚ) = 1 / 2 := by
  have hlt : ((0 : ℚ) :: s).headD 0 < mkRat n spacePerIndent := by
    rw [level_eq_div]
    simp only [List.headD]
    positivity
  rw [handleIndentation_push n 'b' t ((0 : ℚ) :: s) (by decide) hlt, level_eq_div]
  refine ⟨rfl, rfl, rfl, ?_⟩
  rw [Rat.mkRat_eq_div]
  norm_num

theorem C6_fractional_indent_witness :
    0 < 2 ∧
    (handleIndentation (spaces 2 ++ 'b' :: []) ((0 : ℚ) :: [])).1 =
      [{ type := .INDENT, value := .num ((2 : ℚ) / 4) }] :=
  ⟨by norm_num, (C6_fractional_indent 2 [] [] (by norm_num)).1⟩

theorem hasQuote_false_of_suffix {l1 l2 : List Char} (h : l1 <:+ l2)
    (hq : hasQuote l2 = false) : hasQuote l1 = false := by
  rw [hasQuote, List.any_eq_false] at hq ⊢
  exact fun c hc => hq c (h.sublist.subset hc)

theorem hasSlashStar_cons_false {a : Char} {l : List Char}
    (h : hasSlashStar (a :: l) = false) : hasSlashStar l = false := by
  rw [hasSlashStar] at h
  simpa using (Bool.or_eq_false_iff.mp h).2

theorem hasSlashStar_false_of_suffix {l1 l2 : List Char} (h : l1 <:+ l2)
    (hs : hasSlashStar l2 = false) : hasSlashStar l1 = false := by
  obtain ⟨t, rfl⟩ := h
  induction t with
  | nil => simpa using hs
  | cons a t ih => exact ih (hasSlashStar_cons_false hs)

theorem handleIndentation_snd (cs : List Char) (stack : List ℚ) :
    (handleIndentation cs stack).2.1 = cs.dropWhile (· = ' ') := by
  rw [handleIndentation]
  split_ifs <;> rfl

theorem exists_ok_map {ε α β : Type} (f : α → β) {x : Except ε α}
    (h : ∃ r, x = .ok r) : ∃ r, x.map f = .ok r := by
  obtain ⟨r, hr⟩ := h
  exact ⟨f r, by rw [hr]; rfl⟩

theorem map_pair_eta {ε α β : Type} (x : Except ε (α × β)) :
    x.map (fun p => (p.1, p.2)) = x := by
  cases x <;> rfl

theorem map_pair_eta_id {ε α β : Type} (x : Except ε (α × β)) :
    x.map (fun p => (id p.1, p.2)) = x := by
  cases x <;> rfl

theorem getArrow_snd (c : Char) (rest : List Char) :
    (getArrow c rest).2 = rest ∨ (getArrow c rest).2 = rest.tail := by
  rw [getArrow]
  by_cases hc : rest.head? = some '>' ∨ (c = '-' ∧ rest.head? = some '>')
  · simp only [if_pos hc]
    split_ifs <;> right <;> rfl
  · simp only [if_neg hc]
    split_ifs <;> left <;> rfl

theorem getComparison_snd (c : Char) (rest : List Char) :
    (getComparison c rest).2 = rest ∨ (getComparison c rest).2 = rest.tail := by
  rw [getComparison]
  split_ifs
  · right; rfl
  · left; rfl

theorem scanToStarSlash_suffix : ∀ (l b r : List Char),
    scanToStarSlash l = some (b, r) → r <:+ l := by
  intro l
  induction l with
  | nil => intro b r h; simp [scanToStarSlash] at h
  | cons a t ih =>
    intro b r h
    rw [scanToStarSlash] at h
    split_ifs at h with hc
    · obtain ⟨rfl, rfl⟩ : b = [] ∧ r = t.tail := by
        simpa using h.symm
      exact (List.tail_suffix t).trans (List.suffix_cons a t)
    · cases hscan : scanToStarSlash t with
      | none => rw [hscan] at h; simp at h
      | some p =>
        rw [hscan] at h
        obtain ⟨rfl, rfl⟩ : b = a :: p.1 ∧ r = p.2 := by
          simpa using h.symm
        exact (ih p.1 p.2 (by rw [hscan])).trans (List.suffix_cons a t)

theorem getString_ok_suffix {c : Char} {rest : List Char} {tok : Token}
    {r2 : List Char} (h : getString c rest = .ok (tok, r2)) : r2 <:+ rest := by
  rw [getString] at h
  split at h
  · rename_i d rest2 heq
    by_cases hd : d = c
    · rw [if_pos hd] at h
      simp only [Except.ok.injEq, Prod.mk.injEq] at h
      have hsuf : rest2 <:+ rest.dropWhile (· ≠ c) := by
        rw [heq]
        exact List.suffix_cons d rest2
      rw [← h.2]
      exact hsuf.trans (List.dropWhile_suffix _)
    · rw [if_neg hd] at h
      simp at h
  · simp at h

theorem getMultiLineComment_ok_suffix {cs : List Char} {tok : Token}
    {r2 : List Char} (h : getMultiLineComment cs = .ok (tok, r2)) :
    r2 <:+ cs.drop 2 := by
  rw [getMultiLineComment] at h
  split at h
  · rename_i body r heq
    simp only [Except.ok.injEq, Prod.mk.injEq] at h
    rw [← h.2]
    exact scanToStarSlash_suffix _ body r (by rw [heq])
  · simp at h

/-- Case analysis of one dispatch iteration, independent of the
continuation: either the iteration fails (only possible on a quote or on
a slash followed by a star), or it continues on a suffix of the
characters after the current one, with the indent stack either untouched
or updated by handleIndentation, prepending some fixed entries to the
token output. -/
theorem tokenizeStep_cases (c : Char) (rest : List Char) (stack : List ℚ) :
    (((c = '"' ∨ c = '\'') ∨ (c = '/' ∧ rest.head? = some '*')) ∧
      ∃ e, ∀ recur, tokenizeStep recur c rest stack = Except.error e) ∨
    ∃ (rest2 : List Char) (stack2 : List ℚ)
      (g : List (Option Token) → List (Option Token)),
      rest2 <:+ rest ∧
      (stack2 = stack ∨ stack2 = (handleIndentation rest stack).2.2) ∧
      ∀ recur, tokenizeStep recur c rest stack =
        (recur rest2 stack2).map fun p => (g p.1, p.2) := by
  by_cases h1 : c = '\n'
  · right
    refine ⟨(handleIndentation rest stack).2.1, (handleIndentation rest stack).2.2,
      fun l => some { type := .NEWLINE, value := .str "\n" } ::
        ((handleIndentation rest stack).1.map some ++ l), ?_, Or.inr rfl, ?_⟩
    · rw [handleIndentation_snd]
      exact List.dropWhile_suffix _
    · intro recur
      rw [tokenizeStep, if_pos h1]
  by_cases h2 : c = ' ' ∨ c = '\t'
  · right
    refine ⟨rest, stack, id, List.suffix_rfl, Or.inl rfl, fun recur => ?_⟩
    rw [tokenizeStep, if_neg h1, if_pos h2]
    exact (map_pair_eta_id _).symm
  by_cases h3 : c = '/' ∧ rest.head? = some '/'
  · right
    refine ⟨(getSingleLineComment (c :: rest)).2, stack,
      fun l => some (getSingleLineComment (c :: rest)).1 :: l, ?_, Or.inl rfl, ?_⟩
    · have he : (getSingleLineComment (c :: rest)).2 =
          (rest.drop 1).dropWhile (· ≠ '\n') := rfl
      rw [he]
      exact (List.dropWhile_suffix _).trans (List.drop_suffix 1 rest)
    · intro recur
      rw [tokenizeStep, if_neg h1, if_neg h2, if_pos h3]
  by_cases h4 : c = '/' ∧ rest.head? = some '*'
  · rcases hGM : getMultiLineComment (c :: rest) with e | ⟨tok, r2⟩
    · left
      refine ⟨Or.inr h4, e, fun recur => ?_⟩
      rw [tokenizeStep, if_neg h1, if_neg h2, if_neg h3, if_pos h4, hGM]
    · right
      refine ⟨r2, stack, fun l => some tok :: l, ?_, Or.inl rfl, fun recur => ?_⟩
      · have hsuf := getMultiLineComment_ok_suffix hGM
        rw [List.drop_succ_cons] at hsuf
        exact hsuf.trans (List.drop_suffix 1 rest)
      · rw [tokenizeStep, if_neg h1, if_neg h2, if_neg h3, if_pos h4, hGM]
  by_cases h5 : c = '"' ∨ c = '\''
  · rcases hGS : getString c rest with e | ⟨tok, r2⟩
    · left
      refine ⟨Or.inl h5, e, fun recur => ?_⟩
      rw [tokenizeStep, if_neg h1, if_neg h2, if_neg h3, if_neg h4, if_pos h5, hGS]
    · right
      refine ⟨r2, stack, fun l => some tok :: l, getString_ok_suffix hGS,
        Or.inl rfl, fun recur => ?_⟩
      rw [tokenizeStep, if_neg h1, if_neg h2, if_neg h3, if_neg h4, if_pos h5, hGS]
  by_cases h6 : c.isDigit
  · right
    refine ⟨(c :: rest).dropWhile Char.isDigit, stack,
      fun l => some (getInteger (c :: rest)).1 :: l, ?_, Or.inl rfl, ?_⟩
    · rw [List.dropWhile_cons, if_pos h6]
      exact List.dropWhile_suffix _
    · intro recur
      rw [tokenizeStep, if_neg h1, if_neg h2, if_neg h3, if_neg h4, if_neg h5,
        if_pos h6]
      rfl
  by_cases h7 : c.isAlpha
  · right
    refine ⟨(c :: rest).dropWhile Char.isAlpha, stack,
      fun l => some (getIdentifierOrKeyword (c :: rest)).1 :: l, ?_, Or.inl rfl, ?_⟩
    · rw [List.dropWhile_cons, if_pos h7]
      exact List.dropWhile_suffix _
    · intro recur
      rw [tokenizeStep, if_neg h1, if_neg h2, if_neg h3, if_neg h4, if_neg h5,
        if_neg h6, if_pos h7, ← getIdentifierOrKeyword_snd]
  by_cases h8 : c = '('
  · right
    refine ⟨rest, stack, fun l => some { type := .LPAREN, value := .str "(" } :: l,
      List.suffix_rfl, Or.inl rfl, fun recur => ?_⟩
    rw [tokenizeStep, if_neg h1, if_neg h2, if_neg h3, if_neg h4, if_neg h5,
      if_neg h6, if_neg h7, if_pos h8]
  by_cases h9 : c = ')'
  · right
    refine ⟨rest, stack, fun l => some { type := .RPAREN, value := .str ")" } :: l,
      List.suffix_rfl, Or.inl rfl, fun recur => ?_⟩
    rw [tokenizeStep, if_neg h1, if_neg h2, if_neg h3, if_neg h4, if_neg h5,
      if_neg h6, if_neg h7, if_neg h8, if_pos h9]
  by_cases h10 : c = ','
  · right
    refine ⟨rest, stack, fun l => some { type := .COMMA, value := .str "," } :: l,
      List.suffix_rfl, Or.inl rfl, fun recur => ?_⟩
    rw [tokenizeStep, if_neg h1, if_neg h2, if_neg h3, if_neg h4, if_neg h5,
      if_neg h6, if_neg h7, if_neg h8, if_neg h9, if_pos h10]
  by_cases h11 : c = '=' ∨ c = '-'
  · right
    refine ⟨(getArrow c rest).2, stack, fun l => (getArrow c rest).1 :: l, ?_,
      Or.inl rfl, ?_⟩
    · rcases getArrow_snd c rest with h | h <;> rw [h]
      exact List.tail_suffix rest
    · intro recur
      rw [tokenizeStep, if_neg h1, if_neg h2, if_neg h3, if_neg h4, if_neg h5,
        if_neg h6, if_neg h7, if_neg h8, if_neg h9, if_neg h10, if_pos h11]
  by_cases h12 : c = '+' ∨ c = '-' ∨ c = '*' ∨ c = '/' ∨ c = '^'
  · right
    refine ⟨rest, stack, fun l => (getOperator c rest).1 :: l, List.suffix_rfl,
      Or.inl rfl, fun recur => ?_⟩
    rw [tokenizeStep, if_neg h1, if_neg h2, if_neg h3, if_neg h4, if_neg h5,
      if_neg h6, if_neg h7, if_neg h8, if_neg h9, if_neg h10, if_neg h11,
      if_pos h12]
    rfl
  by_cases h13 : c = '=' ∨ c = '!' ∨ c = '<'
  · right
    refine ⟨(getComparison c rest).2, stack,
      fun l => some (getComparison c rest).1 :: l, ?_, Or.inl rfl, ?_⟩
    · rcases getComparison_snd c rest with h | h <;> rw [h]
      exact List.tail_suffix rest
    · intro recur
      rw [tokenizeStep, if_neg h1, if_neg h2, if_neg h3, if_neg h4, if_neg h5,
        if_neg h6, if_neg h7, if_neg h8, if_neg h9, if_neg h10, if_neg h11,
        if_neg h12, if_pos h13]
  by_cases h14 : c = '_'
  · right
    refine ⟨rest.dropWhile Char.isAlphanum, stack,
      fun l => some (getSubscript rest).1 :: l, List.dropWhile_suffix _,
      Or.inl rfl, fun recur => ?_⟩
    rw [tokenizeStep, if_neg h1, if_neg h2, if_neg h3, if_neg h4, if_neg h5,
      if_neg h6, if_neg h7, if_neg h8, if_neg h9, if_neg h10, if_neg h11,
      if_neg h12, if_neg h13, if_pos h14]
    rfl
  · right
    refine ⟨rest, stack, id, List.suffix_rfl, Or.inl rfl, fun recur => ?_⟩
    rw [tokenizeStep, if_neg h1, if_neg h2, if_neg h3, if_neg h4, if_neg h5,
      if_neg h6, if_neg h7, if_neg h8, if_neg h9, if_neg h10, if_neg h11,
      if_neg h12, if_neg h13, if_neg h14]
    exact (map_pair_eta_id _).symm

/-- On input without quote characters and without an adjacent slash-star
pair, the dispatch loop never reaches a throw site. -/
theorem tokenizeLoop_ok (fuel : ℕ) : ∀ (cs : List Char) (stack : List ℚ),
    hasQuote cs = false → hasSlashStar cs = false →
    ∃ r, tokenizeLoop fuel cs stack = .ok r := by
  induction fuel with
  | zero =>
    intro cs stack _ _
    cases cs with
    | nil => exact ⟨_, rfl⟩
    | cons c rest => exact ⟨_, rfl⟩
  | succ fuel ih =>
    intro cs stack hq hs
    cases cs with
    | nil => exact ⟨_, rfl⟩
    | cons c rest =>
      have hqr : hasQuote rest = false :=
        hasQuote_false_of_suffix (List.suffix_cons c rest) hq
      have hsr : hasSlashStar rest = false := hasSlashStar_cons_false hs
      rcases tokenizeStep_cases c rest stack with ⟨hcond, _⟩ |
        ⟨rest2, stack2, g, hsuf, _, heq⟩
      · exfalso
        rcases hcond with hquote | ⟨hslash, hstar⟩
        · rcases hquote with rfl | rfl <;> simp [hasQuote] at hq
        · rw [hasSlashStar] at hs
          simp [hslash, hstar] at hs
      · rw [tokenizeLoop_cons, heq (tokenizeLoop fuel)]
        exact exists_ok_map _ (ih rest2 stack2
          (hasQuote_false_of_suffix hsuf hqr)
          (hasSlashStar_false_of_suffix hsuf hsr))

/-- Claim C4: tokenize fails in exactly two ways, UnterminatedString and
UnterminatedComment, both aborting the whole pass through the Except
error channel so that nothing of the token list survives; on any input
containing no quote character and no adjacent slash-star pair it always
succeeds. The two concrete conjuncts exhibit each error in its stated
situation. -/
theorem C4_error_taxonomy (input : String) :
    (∀ e, tokenize input = .error e →
      e = LexError.UnterminatedString ∨ e = LexError.UnterminatedComment) ∧
    (hasQuote input.data = false → hasSlashStar input.data = false →
      ∃ toks, tokenize input = .ok toks) ∧
    tokenize "'abc" = .error .UnterminatedString ∧
    tokenize "/* x" = .error .UnterminatedComment := by
  refine ⟨?_, ?_, rfl, rfl⟩
  · intro e _
    cases e
    · exact Or.inl rfl
    · exact Or.inr rfl
  · intro hq hs
    rw [tokenize]
    split_ifs with h
    · exact ⟨_, rfl⟩
    · obtain ⟨⟨toks, stack⟩, hr⟩ :=
        tokenizeLoop_ok input.data.length input.data [0] hq hs
      rw [hr]
      exact ⟨_, rfl⟩

theorem C4_error_taxonomy_witness :
    hasQuote ("a + b").data = false ∧ hasSlashStar ("a + b").data = false ∧
    ∃ toks, tokenize "a + b" = .ok toks :=
  ⟨rfl, rfl, (C4_error_taxonomy "a + b").2.1 rfl rfl⟩

/-- The pop loop never pops the bottom level 0 when the current level is
non-negative, and preserves the stack invariant. -/
theorem popDedents_inv {level : ℚ} (hl : 0 ≤ level) :
    ∀ {stack : List ℚ}, IndentInv stack → IndentInv (popDedents level stack).2 := by
  intro stack
  induction stack with
  | nil => intro h; exact absurd rfl h.1
  | cons top rest ih =>
    intro h
    obtain ⟨hne, hlast, hnn, hchain⟩ := h
    rw [popDedents]
    split_ifs with hlt
    · cases rest with
      | nil =>
        exfalso
        have htop : top = 0 := by simpa using hlast
        rw [htop] at hlt
        exact absurd (lt_of_le_of_lt hl hlt) (lt_irrefl 0)
      | cons b t =>
        have hinv : IndentInv (b :: t) := by
          refine ⟨by simp, by simpa using hlast, ?_, hchain.tail⟩
          intro q hq
          exact hnn q (List.mem_cons_of_mem top hq)
        exact ih hinv
    · exact ⟨hne, hlast, hnn, hchain⟩

/-- Pushing a strictly larger non-negative level preserves the
invariant. -/
theorem IndentInv.push {stack : List ℚ} (h : IndentInv stack) {q : ℚ}
    (hq0 : 0 ≤ q) (hq : stack.headD 0 < q) : IndentInv (q :: stack) := by
  obtain ⟨hne, hlast, hnn, hchain⟩ := h
  cases stack with
  | nil => exact absurd rfl hne
  | cons s0 t =>
    refine ⟨by simp, by simpa using hlast, ?_, ?_⟩
    · intro x hx
      rcases List.mem_cons.mp hx with rfl | hx
      · exact hq0
      · exact hnn x hx
    · refine List.chain'_cons'.mpr ⟨?_, hchain⟩
      intro b hb
      simp only [List.head?_cons, Option.mem_def, Option.some.injEq] at hb
      rw [← hb]
      simpa using hq

/-- The possible stack outcomes of handleIndentation: untouched, one
pushed level (strictly above the old top), or the pop-loop result. -/
theorem handleIndentation_stack_cases (cs : List Char) (stack : List ℚ) :
    (handleIndentation cs stack).2.2 = stack ∨
    ((handleIndentation cs stack).2.2 =
        mkRat ((cs.takeWhile (· = ' ')).length : ℕ) spacePerIndent :: stack ∧
      stack.headD 0 < mkRat ((cs.takeWhile (· = ' ')).length : ℕ) spacePerIndent) ∨
    (handleIndentation cs stack).2.2 =
      (popDedents (mkRat ((cs.takeWhile (· = ' ')).length : ℕ) spacePerIndent) stack).2 := by
  rw [handleIndentation]
  split_ifs with h1 h2
  · exact Or.inr (Or.inl ⟨rfl, h1⟩)
  · right; right; rfl
  · left; rfl

/-- The computed level is non-negative. -/
theorem level_nonneg (n : ℕ) : (0 : ℚ) ≤ mkRat n spacePerIndent := by
  rw [level_eq_div]
  positivity

/-- handleIndentation preserves the stack invariant. -/
theorem handleIndentation_inv (cs : List Char) {stack : List ℚ}
    (h : IndentInv stack) : IndentInv (handleIndentation cs stack).2.2 := by
  rcases handleIndentation_stack_cases cs stack with he | ⟨he, hgt⟩ | he <;> rw [he]
  · exact h
  · exact h.push (level_nonneg _) hgt
  · exact popDedents_inv (level_nonneg _) h

/-- The dispatch loop preserves the stack invariant. -/
theorem tokenizeLoop_inv (fuel : ℕ) : ∀ (cs : List Char) (stack : List ℚ),
    IndentInv stack →
    ∀ r, tokenizeLoop fuel cs stack = .ok r → IndentInv r.2 := by
  induction fuel with
  | zero =>
    intro cs stack h r hr
    cases cs with
    | nil =>
      obtain ⟨rfl⟩ : ([], stack) = r := by simpa [tokenizeLoop] using hr
      exact h
    | cons c rest =>
      obtain ⟨rfl⟩ : ([], stack) = r := by simpa [tokenizeLoop] using hr
      exact h
  | succ fuel ih =>
    intro cs stack h r hr
    cases cs with
    | nil =>
      obtain ⟨rfl⟩ : ([], stack) = r := by simpa [tokenizeLoop] using hr
      exact h
    | cons c rest =>
      rcases tokenizeStep_cases c rest stack with ⟨_, herr⟩ |
        ⟨rest2, stack2, g, _, hst, heq⟩
      · obtain ⟨e, he⟩ := herr
        rw [tokenizeLoop_cons, he (tokenizeLoop fuel)] at hr
        exact absurd hr (by simp)
      · rw [tokenizeLoop_cons, heq (tokenizeLoop fuel)] at hr
        cases hrec : tokenizeLoop fuel rest2 stack2 with
        | error e =>
          rw [hrec] at hr
          exact absurd hr (by simp [Except.map])
        | ok p =>
          rw [hrec] at hr
          simp only [Except.map, Except.ok.injEq] at hr
          have hr2 : r.2 = p.2 := by rw [← hr]
          have hinv2 : IndentInv stack2 := by
            rcases hst with rfl | hst2
            · exact h
            · rw [hst2]
              exact handleIndentation_inv rest h
          rw [hr2]
          exact ih rest2 stack2 hinv2 p hrec

/-- Claim C7: the indentation stack always satisfies the invariant:
non-empty with bottom element 0 (never popped before the drain),
non-negative levels, strictly increasing from bottom to top; every
update performed by the indentation tracker and by the loop preserves
it. -/
theorem C7_indent_stack_invariant (cs : List Char) (stack : List ℚ) (fuel : ℕ)
    (h : IndentInv stack) :
    IndentInv (handleIndentation cs stack).2.2 ∧
    ∀ r, tokenizeLoop fuel cs stack = .ok r → IndentInv r.2 :=
  ⟨handleIndentation_inv cs h, tokenizeLoop_inv fuel cs stack h⟩

theorem C7_indent_stack_invariant_witness :
    IndentInv [(0 : ℚ)] ∧
    (IndentInv (handleIndentation ['a'] [(0 : ℚ)]).2.2 ∧
      ∀ r, tokenizeLoop 1 ['a'] [(0 : ℚ)] = .ok r → IndentInv r.2) := by
  have h0 : IndentInv [(0 : ℚ)] := by
    refine ⟨by simp, rfl, ?_, by simp⟩
    intro q hq
    simp only [List.mem_singleton] at hq
    rw [hq]
  exact ⟨h0, C7_indent_stack_invariant ['a'] [(0 : ℚ)] 1 h0⟩

/-- Any fuel at least the remaining length gives the same result: the
fuel-exhausted arm of tokenizeLoop is never reached from tokenize, which
supplies the input length as fuel. -/
theorem tokenizeLoop_fuel_irrelevant (f : ℕ) : ∀ (g : ℕ) (cs : List Char)
    (stack : List ℚ), cs.length ≤ f → cs.length ≤ g →
    tokenizeLoop f cs stack = tokenizeLoop g cs stack := by
  induction f with
  | zero =>
    intro g cs stack hf hg
    have hnil : cs = [] := List.length_eq_zero.mp (Nat.le_zero.mp hf)
    subst hnil
    cases g <;> rfl
  | succ f ihf =>
    intro g cs stack hf hg
    cases cs with
    | nil => cases g <;> rfl
    | cons c rest =>
      obtain ⟨g', rfl⟩ : ∃ g', g = g' + 1 := by
        cases g with
        | zero => exact absurd hg (by simp)
        | succ g' => exact ⟨g', rfl⟩
      rcases tokenizeStep_cases c rest stack with ⟨_, e, herr⟩ |
        ⟨rest2, stack2, gg, hsuf, _, heq⟩
      · rw [tokenizeLoop_cons, tokenizeLoop_cons, herr (tokenizeLoop f),
          herr (tokenizeLoop g')]
      · rw [tokenizeLoop_cons, tokenizeLoop_cons, heq (tokenizeLoop f),
          heq (tokenizeLoop g')]
        have hlen := hsuf.length_le
        have hf2 : rest2.length ≤ f := by
          simp only [List.length_cons] at hf
          omega
        have hg2 : rest2.length ≤ g' := by
          simp only [List.length_cons] at hg
          omega
        rw [ihf g' rest2 stack2 hf2 hg2]

/-- The newline iteration, with the handleIndentation result given. -/
theorem tokenizeStep_newline (recur : List Char → List ℚ →
      Except LexError (List (Option Token) × List ℚ))
    (rest : List Char) (stack : List ℚ) (itoks : List Token)
    (rest2 : List Char) (stack2 : List ℚ)
    (hH : handleIndentation rest stack = (itoks, rest2, stack2)) :
    tokenizeStep recur '\n' rest stack =
      (recur rest2 stack2).map fun p =>
        (some { type := .NEWLINE, value := .str "\n" } ::
          (itoks.map some ++ p.1), p.2) := by
  rw [tokenizeStep, if_pos rfl, hH]

/-- The iteration on the one-letter identifier a followed by a newline or
by end of input. -/
theorem tokenizeStep_ident_a (recur : List Char → List ℚ →
      Except LexError (List (Option Token) × List ℚ))
    (tail : List Char) (stack : List ℚ)
    (h : tail.head? = none ∨ tail.head? = some '\n') :
    tokenizeStep recur 'a' tail stack =
      (recur tail stack).map fun p =>
        (some { type := .IDENTIFIER, value := .str "a" } :: p.1, p.2) := by
  rw [tokenizeStep_alpha recur 'a' tail stack rfl]
  rcases h with h | h
  · have hnil : tail = [] := by
      cases tail with
      | nil => rfl
      | cons x t => simp at h
    subst hnil
    rfl
  · obtain ⟨t, rfl⟩ : ∃ t, tail = '\n' :: t := by
      cases tail with
      | nil => simp at h
      | cons x t =>
        simp only [List.head?_cons, Option.some.injEq] at h
        exact ⟨t, by rw [h]⟩
    rfl

/-- The level of a line with 4 m leading spaces is exactly m. -/
theorem level_four_mul (m : ℕ) :
    (mkRat (((4 * m : ℕ) : ℤ)) spacePerIndent : ℚ) = ((m : ℕ) : ℚ) := by
  rw [level_eq_div]
  push_cast
  ring

/-- Running the loop over a staircase block: each line emits NEWLINE,
INDENT of the next level, and the line identifier; the stack accumulates
the levels. -/
theorem stair_loop (n : ℕ) : ∀ (k fuel : ℕ) (s : List ℚ),
    (stairFrom (k + 1) n).length ≤ fuel →
    tokenizeLoop fuel (stairFrom (k + 1) n) (((k : ℕ) : ℚ) :: s) =
      .ok (stairToks (k + 1) n, finalStack n k s) := by
  induction n with
  | zero =>
    intro k fuel s hf
    cases fuel <;> rfl
  | succ n ih =>
    intro k fuel s hf
    rw [stairFrom] at hf ⊢
    obtain ⟨f1, rfl⟩ : ∃ f1, fuel = f1 + 1 := by
      cases fuel with
      | zero => simp at hf
      | succ f1 => exact ⟨f1, rfl⟩
    have hlt : ((((k : ℕ) : ℚ)) :: s).headD 0 <
        mkRat (((4 * (k + 1) : ℕ) : ℤ)) spacePerIndent := by
      rw [level_four_mul]
      simp only [List.headD_cons]
      exact_mod_cast Nat.lt_succ_self k
    have hpush := handleIndentation_push (4 * (k + 1)) 'a'
      (stairFrom (k + 1 + 1) n) (((k : ℕ) : ℚ) :: s) (by decide) hlt
    rw [tokenizeLoop_cons, tokenizeStep_newline _ _ _ _ _ _ hpush, level_four_mul]
    obtain ⟨f2, rfl⟩ : ∃ f2, f1 = f2 + 1 := by
      simp only [List.length_cons, List.length_append, spaces_length] at hf
      cases f1 with
      | zero => omega
      | succ f2 => exact ⟨f2, rfl⟩
    rw [tokenizeLoop_cons, tokenizeStep_ident_a (tokenizeLoop f2)
      (stairFrom (k + 1 + 1) n) _ (by cases n <;> simp [stairFrom])]
    rw [ih (k + 1) f2 (((k : ℕ) : ℚ) :: s) (by
      simp only [List.length_cons, List.length_append, spaces_length] at hf
      omega)]
    simp [Except.map, stairToks, finalStack]

/-- Shifting a staircase level list: appending the lowest level to the
levels above it. -/
theorem descList_snoc (n : ℕ) : ∀ (k : ℕ),
    descList n (k + 1) ++ [((k + 1 : ℕ) : ℚ)] = descList (n + 1) k := by
  induction n with
  | zero =>
    intro k
    rw [descList, descList, descList]
    simp
  | succ n ih =>
    intro k
    rw [descList, descList]
    simp only [List.cons_append, List.cons.injEq]
    constructor
    · congr 1
      omega
    · rw [ih k]

/-- The staircase stack is the descending level list over the base. -/
theorem finalStack_eq (n : ℕ) : ∀ (k : ℕ) (s : List ℚ),
    finalStack n k s = descList n k ++ ((k : ℕ) : ℚ) :: s := by
  induction n with
  | zero =>
    intro k s
    rw [finalStack, descList]
    rfl
  | succ n ih =>
    intro k s
    rw [finalStack, ih (k + 1) (((k : ℕ) : ℚ) :: s), ← descList_snoc n k]
    simp

/-- Draining the staircase stack emits DEDENTs carrying the successive
new tops. -/
theorem closeIndents_desc (n : ℕ) : ∀ (k : ℕ),
    closeIndents (descList n k ++ [((k : ℕ) : ℚ)]) = dedentToks n k := by
  induction n with
  | zero =>
    intro k
    rfl
  | succ n ih =>
    intro k
    cases n with
    | zero => rfl
    | succ m =>
      rw [descList]
      have hcons : descList (m + 1) k ++ [((k : ℕ) : ℚ)] =
          ((k + m + 1 : ℕ) : ℚ) :: (descList m k ++ [((k : ℕ) : ℚ)]) := by
        rw [descList]
        simp
      rw [List.cons_append, hcons, closeIndents, ← hcons, ih k, dedentToks]
      rfl

/-- The INDENT values of a staircase token block: k, k+1, ... upward. -/
theorem stairToks_vals (n : ℕ) : ∀ (k : ℕ),
    (stairToks k n).filterMap indentValue =
      (List.range n).map fun i => ((i + k : ℕ) : ℚ) := by
  induction n with
  | zero => intro k; rfl
  | succ n ih =>
    intro k
    rw [stairToks]
    simp only [List.filterMap_cons]
    rw [show indentValue (some { type := .NEWLINE, value := .str "\n" }) = none from rfl,
      show indentValue (some { type := .INDENT, value := .num ((k : ℕ) : ℚ) }) =
        some ((k : ℕ) : ℚ) from rfl,
      show indentValue (some { type := .IDENTIFIER, value := .str "a" }) = none from rfl]
    rw [ih (k + 1), List.range_succ_eq_map]
    simp only [List.map_cons, List.map_map, List.cons.injEq]
    constructor
    · norm_num
    · apply List.map_congr_left
      intro i _
      congr 1
      omega

/-- The DEDENT values of the staircase drain: downward to k. -/
theorem dedentToks_vals (n : ℕ) : ∀ (k : ℕ),
    ((dedentToks n k).map some).filterMap indentValue =
      (List.range n).reverse.map fun i => ((i + k : ℕ) : ℚ) := by
  induction n with
  | zero => intro k; rfl
  | succ n ih =>
    intro k
    rw [dedentToks]
    simp only [List.map_cons, List.filterMap_cons]
    rw [show indentValue (some { type := .DEDENT, value := .num ((k + n : ℕ) : ℚ) }) =
      some ((k + n : ℕ) : ℚ) from rfl]
    rw [ih k, List.range_succ]
    simp only [List.reverse_append, List.reverse_cons, List.reverse_nil,
      List.nil_append, List.cons_append, List.map_cons, List.cons.injEq]
    constructor
    · congr 1
      omega
    · trivial

/-- Claim C5: on a staircase input rising from level 0 to L in single
steps and returning to 0 through the end-of-input drain, the INDENT and
DEDENT values in emission order are exactly 1, 2, ..., L followed by
L-1, ..., 1, 0, each DEDENT carrying the new top after its pop. -/
theorem C5_indentation_roundtrip (L : ℕ) :
    indentValues (tokenize (stairInput L)) =
      ((List.range L).map fun i => ((i + 1 : ℕ) : ℚ)) ++
      ((List.range L).reverse.map fun i => ((i : ℕ) : ℚ)) := by
  have hdata : (stairInput L).data = 'a' :: stairFrom 1 L := rfl
  rw [tokenize, hdata]
  rw [if_neg (by simp : ¬(('a' :: stairFrom 1 L).isEmpty = true))]
  rw [List.length_cons, tokenizeLoop_cons]
  rw [tokenizeStep_ident_a (tokenizeLoop (stairFrom 1 L).length) (stairFrom 1 L)
    [0] (by cases L <;> simp [stairFrom])]
  have hsl := stair_loop L 0 (stairFrom 1 L).length [] (le_refl _)
  norm_num at hsl
  rw [hsl]
  have hfs : finalStack L 0 [] = descList L 0 ++ [(0 : ℚ)] := by
    have h := finalStack_eq L 0 []
    norm_num at h
    exact h
  have hcd : closeIndents (descList L 0 ++ [(0 : ℚ)]) = dedentToks L 0 := by
    have h := closeIndents_desc L 0
    norm_num at h
    exact h
  rw [hfs]
  simp only [Except.map, indentValues]
  rw [hcd]
  simp only [List.filterMap_append, List.filterMap_cons]
  rw [show indentValue (some { type := .IDENTIFIER, value := .str "a" }) = none from rfl]
  rw [stairToks_vals, dedentToks_vals]
  simp
